import Mathlib

/-!
Verification of the cluster-extraction and classification pipeline of
`object3d_detector_gpu.cpp` (human-aware navigation, pedestrian detector).

The C++ source is shallowly embedded over exact rationals: every float or
double of the program becomes a `ℚ`, every fixed-size array a function, and
the external capabilities (GPU euclidean clustering, PCA projection, the
libsvm model) become function parameters of the definitions that drive them.
-/

namespace ObjectDetector

/-- A 3D point of a point-cloud frame (pcl::PointXYZ, embedded over ℚ). -/
structure Point where
  x : ℚ
  y : ℚ
  z : ℚ
deriving DecidableEq, Repr

/-- Squared Euclidean distance from the sensor origin, the quantity `d2`
computed in `extractCluster` and `extractFeature`:
`x*x + y*y + z*z`. -/
def squaredRange (p : Point) : ℚ := p.x * p.x + p.y * p.y + p.z * p.z

/-- The band widths `zone_[14] = {2,3,3,3,3,3,3,2,3,3,3,3,3,3}` of the
nested circular regions. -/
def zone : List ℚ := [2, 3, 3, 3, 3, 3, 3, 2, 3, 3, 3, 3, 3, 3]

/-- The inner loop of the region partitioner: walk the remaining band
widths `ws` with the accumulated threshold `range`, return the index of the
first band `j` whose squared-range interval contains `d2`
(`d2 > range*range && d2 <= (range+zone_[j])*(range+zone_[j])`, then
`break`), `none` if no band matches. -/
def assignBandAux (d2 : ℚ) : List ℚ → ℚ → Nat → Option Nat
  | [], _, _ => none
  | w :: ws, range, j =>
    if range * range < d2 ∧ d2 ≤ (range + w) * (range + w) then some j
    else assignBandAux d2 ws (range + w) (j + 1)

/-- The region index assigned to a point by `extractCluster`'s nested-region
loop (`none` when the point is beyond the last cumulative threshold). -/
def assignBand (p : Point) : Option Nat := assignBandAux (squaredRange p) zone 0 0

/-- Sum of the first `k` entries of a list (the cumulative range threshold
reached after consuming `k` band widths). -/
def cumSum : List ℚ → Nat → ℚ
  | _, 0 => 0
  | [], _ + 1 => 0
  | w :: ws, k + 1 => w + cumSum ws k

/-- Cumulative lower range threshold of band `b`. -/
def bandLower (b : Nat) : ℚ := cumSum zone b

/-- The per-region index sets `indices_array[j]` filled by the partition
loop: indices `i` of the (already z-filtered) frame whose point is assigned
to band `j`. -/
def indicesArray (pc : List Point) (j : Nat) : List Nat :=
  (List.range pc.length).filter (fun i => assignBand (pc.getD i ⟨0, 0, 0⟩) == some j)

lemma cumSum_zero (ws : List ℚ) : cumSum ws 0 = 0 := by cases ws <;> rfl

lemma cumSum_cons (w : ℚ) (ws : List ℚ) (k : Nat) :
    cumSum (w :: ws) (k + 1) = w + cumSum ws k := rfl

lemma assignBandAux_ge (d2 : ℚ) :
    ∀ (ws : List ℚ) (r : ℚ) (j k : Nat), assignBandAux d2 ws r j = some k → j ≤ k := by
  intro ws
  induction ws with
  | nil => intro r j k h; simp [assignBandAux] at h
  | cons w ws ih =>
    intro r j k h
    rw [assignBandAux] at h
    split at h
    · injection h with h; omega
    · have := ih (r + w) (j + 1) k h
      omega

lemma cumSum_nonneg {ws : List ℚ} (h : ∀ w ∈ ws, 0 ≤ w) (k : Nat) : 0 ≤ cumSum ws k := by
  induction ws generalizing k with
  | nil => cases k <;> simp [cumSum]
  | cons w ws ih =>
    cases k with
    | zero => simp [cumSum]
    | succ k =>
      have hw : 0 ≤ w := h w (by simp)
      have hws : ∀ w ∈ ws, 0 ≤ w := fun v hv => h v (by simp [hv])
      have := ih hws k
      rw [cumSum]
      linarith

lemma cumSum_mono {ws : List ℚ} (h : ∀ w ∈ ws, 0 ≤ w) {k k2 : Nat} (hk : k ≤ k2) :
    cumSum ws k ≤ cumSum ws k2 := by
  induction ws generalizing k k2 with
  | nil => cases k <;> cases k2 <;> simp [cumSum]
  | cons w ws ih =>
    cases k with
    | zero =>
      cases k2 with
      | zero => simp
      | succ k2 =>
        have hw : 0 ≤ w := h w (by simp)
        have hws : ∀ v ∈ ws, 0 ≤ v := fun v hv => h v (by simp [hv])
        have := cumSum_nonneg hws k2
        simp only [cumSum]
        linarith
    | succ k =>
      cases k2 with
      | zero => omega
      | succ k2 =>
        have hws : ∀ v ∈ ws, 0 ≤ v := fun v hv => h v (by simp [hv])
        have := ih hws (by omega : k ≤ k2)
        simp only [cumSum]
        linarith

/-- Characterisation of the first-match band walk: starting at accumulated
threshold `r` and index `j0`, the walk returns index `j0 + b` exactly when
`b` is in range and `d2` lies in band `b`'s squared-threshold interval. -/
lemma assignBandAux_eq_some_iff (d2 : ℚ) :
    ∀ (ws : List ℚ) (r : ℚ) (j0 b : Nat), 0 ≤ r → (∀ w ∈ ws, 0 ≤ w) →
      (assignBandAux d2 ws r j0 = some (j0 + b) ↔
        b < ws.length ∧ (r + cumSum ws b) * (r + cumSum ws b) < d2 ∧
          d2 ≤ (r + cumSum ws (b + 1)) * (r + cumSum ws (b + 1))) := by
  intro ws
  induction ws with
  | nil =>
    intro r j0 b _ _
    simp [assignBandAux]
  | cons w ws ih =>
    intro r j0 b hr hw
    have hw0 : 0 ≤ w := hw w (by simp)
    have hws : ∀ v ∈ ws, 0 ≤ v := fun v hv => hw v (by simp [hv])
    rw [assignBandAux]
    split
    · rename_i hcond
      cases b with
      | zero =>
        constructor
        · intro _
          refine ⟨by simp, ?_, ?_⟩
          · rw [cumSum_zero, add_zero]
            exact hcond.1
          · rw [cumSum_cons, cumSum_zero, add_zero]
            exact hcond.2
        · intro _
          norm_num
      | succ b =>
        constructor
        · intro h
          injection h with h
          omega
        · rintro ⟨-, hlt, -⟩
          exfalso
          have hc : 0 ≤ cumSum ws b := cumSum_nonneg hws b
          rw [cumSum_cons] at hlt
          nlinarith [hcond.2]
    · rename_i hcond
      cases b with
      | zero =>
        constructor
        · intro h
          rw [Nat.add_zero] at h
          have := assignBandAux_ge d2 ws (r + w) (j0 + 1) j0 h
          omega
        · rintro ⟨-, hlt, hle⟩
          exfalso
          apply hcond
          rw [cumSum_zero, add_zero] at hlt
          rw [cumSum_cons, cumSum_zero, add_zero] at hle
          exact ⟨hlt, hle⟩
      | succ b =>
        have heq : j0 + (b + 1) = (j0 + 1) + b := by omega
        rw [heq]
        have hIH := ih (r + w) (j0 + 1) b (by linarith) hws
        rw [hIH]
        rw [cumSum_cons, cumSum_cons]
        constructor
        · rintro ⟨hb, hlt, hle⟩
          refine ⟨by simpa using Nat.succ_lt_succ hb, ?_, ?_⟩
          · have hrw : r + (w + cumSum ws b) = r + w + cumSum ws b := by ring
            rw [hrw]
            exact hlt
          · have hrw : r + (w + cumSum ws (b + 1)) = r + w + cumSum ws (b + 1) := by ring
            rw [hrw]
            exact hle
        · rintro ⟨hb, hlt, hle⟩
          refine ⟨by simpa using hb, ?_, ?_⟩
          · have hrw : r + w + cumSum ws b = r + (w + cumSum ws b) := by ring
            rw [hrw]
            exact hlt
          · have hrw : r + w + cumSum ws (b + 1) = r + (w + cumSum ws (b + 1)) := by ring
            rw [hrw]
            exact hle

lemma zone_nonneg : ∀ w ∈ zone, (0 : ℚ) ≤ w := by decide

/-- A point is assigned band `b` exactly when its squared range lies in
band `b`'s cumulative-threshold interval. -/
lemma assignBand_eq_some_iff (p : Point) (b : Nat) :
    assignBand p = some b ↔
      b < 14 ∧ bandLower b * bandLower b < squaredRange p ∧
        squaredRange p ≤ bandLower (b + 1) * bandLower (b + 1) := by
  have h := assignBandAux_eq_some_iff (squaredRange p) zone 0 0 b le_rfl zone_nonneg
  simp only [Nat.zero_add, zero_add] at h
  rw [assignBand, h, bandLower, bandLower]
  norm_num [zone]

lemma bandLower_last : bandLower 14 = 40 := by norm_num [bandLower, cumSum, zone]

lemma bandLower_eval :
    bandLower 0 = 0 ∧ bandLower 1 = 2 ∧ bandLower 2 = 5 ∧ bandLower 3 = 8 ∧
    bandLower 4 = 11 ∧ bandLower 5 = 14 ∧ bandLower 6 = 17 ∧ bandLower 7 = 20 ∧
    bandLower 8 = 22 ∧ bandLower 9 = 25 ∧ bandLower 10 = 28 ∧ bandLower 11 = 31 ∧
    bandLower 12 = 34 ∧ bandLower 13 = 37 ∧ bandLower 14 = 40 := by
  norm_num [bandLower, cumSum, zone]

lemma bandLower_nonneg (b : Nat) : 0 ≤ bandLower b := cumSum_nonneg zone_nonneg b

lemma bandLower_mono {k k2 : Nat} (h : k ≤ k2) : bandLower k ≤ bandLower k2 :=
  cumSum_mono zone_nonneg h

/-- Totality on the covered range: any point with positive squared range at
most 40² = 1600 is assigned one of the 14 bands. -/
lemma assignBand_total (p : Point) (h0 : 0 < squaredRange p)
    (h16 : squaredRange p ≤ 1600) : ∃ b, b < 14 ∧ assignBand p = some b := by
  obtain ⟨e0, e1, e2, e3, e4, e5, e6, e7, e8, e9, e10, e11, e12, e13, e14⟩ := bandLower_eval
  rcases le_or_lt (squaredRange p) 4 with h1 | h1
  · exact ⟨0, by norm_num,
      (assignBand_eq_some_iff p 0).2 ⟨by norm_num, by rw [e0]; linarith, by rw [e1]; linarith⟩⟩
  rcases le_or_lt (squaredRange p) 25 with h2 | h2
  · exact ⟨1, by norm_num,
      (assignBand_eq_some_iff p 1).2 ⟨by norm_num, by rw [e1]; linarith, by rw [e2]; linarith⟩⟩
  rcases le_or_lt (squaredRange p) 64 with h3 | h3
  · exact ⟨2, by norm_num,
      (assignBand_eq_some_iff p 2).2 ⟨by norm_num, by rw [e2]; linarith, by rw [e3]; linarith⟩⟩
  rcases le_or_lt (squaredRange p) 121 with h4 | h4
  · exact ⟨3, by norm_num,
      (assignBand_eq_some_iff p 3).2 ⟨by norm_num, by rw [e3]; linarith, by rw [e4]; linarith⟩⟩
  rcases le_or_lt (squaredRange p) 196 with h5 | h5
  · exact ⟨4, by norm_num,
      (assignBand_eq_some_iff p 4).2 ⟨by norm_num, by rw [e4]; linarith, by rw [e5]; linarith⟩⟩
  rcases le_or_lt (squaredRange p) 289 with h6 | h6
  · exact ⟨5, by norm_num,
      (assignBand_eq_some_iff p 5).2 ⟨by norm_num, by rw [e5]; linarith, by rw [e6]; linarith⟩⟩
  rcases le_or_lt (squaredRange p) 400 with h7 | h7
  · exact ⟨6, by norm_num,
      (assignBand_eq_some_iff p 6).2 ⟨by norm_num, by rw [e6]; linarith, by rw [e7]; linarith⟩⟩
  rcases le_or_lt (squaredRange p) 484 with h8 | h8
  · exact ⟨7, by norm_num,
      (assignBand_eq_some_iff p 7).2 ⟨by norm_num, by rw [e7]; linarith, by rw [e8]; linarith⟩⟩
  rcases le_or_lt (squaredRange p) 625 with h9 | h9
  · exact ⟨8, by norm_num,
      (assignBand_eq_some_iff p 8).2 ⟨by norm_num, by rw [e8]; linarith, by rw [e9]; linarith⟩⟩
  rcases le_or_lt (squaredRange p) 784 with h10 | h10
  · exact ⟨9, by norm_num,
      (assignBand_eq_some_iff p 9).2 ⟨by norm_num, by rw [e9]; linarith, by rw [e10]; linarith⟩⟩
  rcases le_or_lt (squaredRange p) 961 with h11 | h11
  · exact ⟨10, by norm_num,
      (assignBand_eq_some_iff p 10).2 ⟨by norm_num, by rw [e10]; linarith, by rw [e11]; linarith⟩⟩
  rcases le_or_lt (squaredRange p) 1156 with h12 | h12
  · exact ⟨11, by norm_num,
      (assignBand_eq_some_iff p 11).2 ⟨by norm_num, by rw [e11]; linarith, by rw [e12]; linarith⟩⟩
  rcases le_or_lt (squaredRange p) 1369 with h13 | h13
  · exact ⟨12, by norm_num,
      (assignBand_eq_some_iff p 12).2 ⟨by norm_num, by rw [e12]; linarith, by rw [e13]; linarith⟩⟩
  exact ⟨13, by norm_num,
    (assignBand_eq_some_iff p 13).2 ⟨by norm_num, by rw [e13]; linarith, by rw [e14]; linarith⟩⟩

/-- Claim C1 counterexample: the sensor-origin point has squared range 0,
which lies within the last cumulative threshold (40² = 1600), yet the
partition loop assigns it to no band — it does not belong to exactly one
band, refuting unqualified totality. -/
theorem region_partition_origin_counterexample :
    squaredRange ⟨0, 0, 0⟩ = 0 ∧ (0 : ℚ) ≤ 40 * 40 ∧
      assignBand ⟨0, 0, 0⟩ = none := by
  refine ⟨by norm_num [squaredRange], by norm_num, ?_⟩
  norm_num [assignBand, assignBandAux, squaredRange, zone]

/-- Claim C1 (amended): the partitioner assigns a surviving point to at most
one band, namely the first band whose cumulative-threshold interval
`priorThreshold² < x²+y²+z² ≤ (priorThreshold+width)²` contains its squared
range; the 14 index sets are pairwise disjoint; every point with strictly
positive squared range within the last cumulative threshold (40² = 1600)
belongs to exactly one band (the zero-squared-range origin point belongs to
none); and points beyond the last cumulative threshold belong to no band. -/
theorem region_partition_bands (p : Point) :
    (∀ b, assignBand p = some b →
        b < 14 ∧
        bandLower b * bandLower b < squaredRange p ∧
        squaredRange p ≤ bandLower (b + 1) * bandLower (b + 1) ∧
        ∀ b2 < b, ¬(bandLower b2 * bandLower b2 < squaredRange p ∧
            squaredRange p ≤ bandLower (b2 + 1) * bandLower (b2 + 1))) ∧
    (∀ (pc : List Point) (j j2 i : Nat),
        i ∈ indicesArray pc j → i ∈ indicesArray pc j2 → j = j2) ∧
    (0 < squaredRange p → squaredRange p ≤ 1600 →
        ∃ b, b < 14 ∧ assignBand p = some b) ∧
    (1600 < squaredRange p → assignBand p = none) := by
  refine ⟨?_, ?_, assignBand_total p, ?_⟩
  · intro b hb
    obtain ⟨hb14, h1, h2⟩ := (assignBand_eq_some_iff p b).1 hb
    refine ⟨hb14, h1, h2, ?_⟩
    rintro b2 hb2 ⟨-, hle2⟩
    have hmono : bandLower (b2 + 1) ≤ bandLower b := bandLower_mono (by omega)
    have hsq : bandLower (b2 + 1) * bandLower (b2 + 1) ≤ bandLower b * bandLower b :=
      mul_self_le_mul_self (bandLower_nonneg _) hmono
    linarith
  · intro pc j j2 i hj hj2
    rw [indicesArray, List.mem_filter] at hj hj2
    have h1 : assignBand (pc.getD i ⟨0, 0, 0⟩) = some j := by
      have := hj.2
      rwa [beq_iff_eq] at this
    have h2 : assignBand (pc.getD i ⟨0, 0, 0⟩) = some j2 := by
      have := hj2.2
      rwa [beq_iff_eq] at this
    rw [h1] at h2
    injection h2
  · intro hbig
    cases hopt : assignBand p with
    | none => rfl
    | some b =>
      exfalso
      obtain ⟨hb14, -, h2⟩ := (assignBand_eq_some_iff p b).1 hopt
      have hmono : bandLower (b + 1) ≤ bandLower 14 := bandLower_mono (by omega)
      rw [bandLower_last] at hmono
      have hnn : 0 ≤ bandLower (b + 1) := bandLower_nonneg _
      nlinarith

/-- Claim C1 witness: a concrete point at 2.5 m range (squared range 6.25)
is assigned some band by the totality part of the partition theorem. -/
theorem region_partition_bands_witness :
    ∃ b, b < 14 ∧ assignBand ⟨3 / 2, 2, 0⟩ = some b :=
  (region_partition_bands ⟨3 / 2, 2, 0⟩).2.2.1 (by norm_num [squaredRange])
    (by norm_num [squaredRange])

/-! ## Feature scaling and classification (`Object3dDetector::classify`) -/

/-- The double-precision machine epsilon `DBL_EPSILON` = 2⁻⁵² used by the
scaling loop's comparisons. -/
def dblEpsilon : ℚ := 1 / 2 ^ 52

/-- One iteration of the scaling loop of `classify` for one feature
dimension with stored range `(lower, upper)`, global targets
`(xlo, xhi)` = `(svm_x_lower_, svm_x_upper_)` and current value `v`:
skip single-valued attributes, snap values at the bounds to the targets,
otherwise interpolate linearly. -/
def scaleValue (lower upper xlo xhi v : ℚ) : ℚ :=
  if |lower - upper| < dblEpsilon then v
  else if |v - lower| < dblEpsilon then xlo
  else if |v - upper| < dblEpsilon then xhi
  else xlo + (xhi - xlo) * (v - lower) / (upper - lower)

/-- The scaling loop over the 34 feature dimensions (`svm_scale_range_`
row `i` applied to `svm_node_[i].value`; the iterations are independent). -/
def scaleFeatures (ranges : Fin 34 → ℚ × ℚ) (xlo xhi : ℚ) (v : Fin 34 → ℚ) :
    Fin 34 → ℚ :=
  fun i => scaleValue (ranges i).1 (ranges i).2 xlo xhi (v i)

/-- The range-file parse loop of the constructor: each parsed line
`(idx, fmin, fmax)` overwrites `svm_scale_range_[idx-1]`; rows never
written keep whatever the (uninitialised) member array held before. -/
def parseRangeLines (init : Fin 34 → ℚ × ℚ) (lines : List (Nat × ℚ × ℚ)) :
    Fin 34 → ℚ × ℚ :=
  lines.foldl (fun t l => fun i => if (i : Nat) = l.1 - 1 then (l.2.1, l.2.2) else t i) init

/-- The flag `use_svm_model_` after the constructor: set only when the SVM model
loads and the range file also opens. -/
def initUseSvmModel (modelLoaded rangeLoaded : Bool) : Bool :=
  modelLoaded && rangeLoaded

/-- The per-cluster accept decision of `classify`: in model-free mode every
cluster is accepted; with a probability model a cluster is dropped exactly
when `prob_estimates[0] < human_probability_`; otherwise it is dropped
unless `svm_predict` returns label 1. -/
def classifyAccept (useSvm isProb : Bool) (probEst0 : ℚ) (label : ℤ)
    (thr : ℚ) : Bool :=
  if useSvm then
    if isProb then !(decide (probEst0 < thr)) else decide (label = 1)
  else true

/-- Claim C2: per-dimension normalisation of the 34-dimensional descriptor:
a single-valued range leaves the value unscaled, a value within ε of the
stored lower bound snaps exactly to the global lower target, a value within
ε of the upper bound snaps exactly to the global upper target, any other
value is linearly interpolated, and the interpolation never divides by
zero. -/
theorem feature_scaling_cases (ranges : Fin 34 → ℚ × ℚ) (xlo xhi : ℚ)
    (v : Fin 34 → ℚ) (i : Fin 34) :
    (|(ranges i).1 - (ranges i).2| < dblEpsilon →
        scaleFeatures ranges xlo xhi v i = v i) ∧
    (dblEpsilon ≤ |(ranges i).1 - (ranges i).2| →
        |v i - (ranges i).1| < dblEpsilon →
        scaleFeatures ranges xlo xhi v i = xlo) ∧
    (dblEpsilon ≤ |(ranges i).1 - (ranges i).2| →
        dblEpsilon ≤ |v i - (ranges i).1| →
        |v i - (ranges i).2| < dblEpsilon →
        scaleFeatures ranges xlo xhi v i = xhi) ∧
    (dblEpsilon ≤ |(ranges i).1 - (ranges i).2| →
        dblEpsilon ≤ |v i - (ranges i).1| →
        dblEpsilon ≤ |v i - (ranges i).2| →
        scaleFeatures ranges xlo xhi v i =
          xlo + (xhi - xlo) * (v i - (ranges i).1) / ((ranges i).2 - (ranges i).1)) ∧
    (dblEpsilon ≤ |(ranges i).1 - (ranges i).2| → (ranges i).2 - (ranges i).1 ≠ 0) := by
  have heps : 0 < dblEpsilon := by norm_num [dblEpsilon]
  refine ⟨?_, ?_, ?_, ?_, ?_⟩
  · intro h
    simp [scaleFeatures, scaleValue, h]
  · intro h1 h2
    rw [scaleFeatures, scaleValue, if_neg (by linarith), if_pos h2]
  · intro h1 h2 h3
    rw [scaleFeatures, scaleValue, if_neg (by linarith), if_neg (by linarith),
      if_pos h3]
  · intro h1 h2 h3
    rw [scaleFeatures, scaleValue, if_neg (by linarith), if_neg (by linarith),
      if_neg (by linarith)]
  · intro h1 hz
    have : (ranges i).1 - (ranges i).2 = 0 := by linarith [sub_eq_zero_of_eq hz.symm]
    rw [this] at h1
    simp at h1
    linarith

/-- Claim C2 witness: a concrete dimension with range (0, 1), targets
(−1, 1) and value 1/2, which is interpolated to 0; the boundary value 0
snaps to −1 and the denominator is nonzero. -/
theorem feature_scaling_cases_witness :
    scaleFeatures (fun _ => ((0 : ℚ), (1 : ℚ))) (-1) 1 (fun _ => 1 / 2) 0 =
      -1 + (1 - (-1)) * (1 / 2 - 0) / (1 - 0) ∧
    scaleFeatures (fun _ => ((0 : ℚ), (1 : ℚ))) (-1) 1 (fun _ => 0) 0 = -1 ∧
    ((1 : ℚ) - 0 ≠ 0) := by
  refine ⟨?_, ?_, ?_⟩
  · exact (feature_scaling_cases (fun _ => ((0 : ℚ), (1 : ℚ))) (-1) 1 (fun _ => 1 / 2) 0).2.2.2.1
      (by norm_num [dblEpsilon]) (by norm_num [dblEpsilon, abs_of_nonneg])
      (by norm_num [dblEpsilon, abs_of_nonneg])
  · exact (feature_scaling_cases (fun _ => ((0 : ℚ), (1 : ℚ))) (-1) 1 (fun _ => 0) 0).2.1
      (by norm_num [dblEpsilon]) (by norm_num [dblEpsilon])
  · exact (feature_scaling_cases (fun _ => ((0 : ℚ), (1 : ℚ))) (-1) 1 (fun _ => 0) 0).2.2.2.2
      (by norm_num [dblEpsilon])

/-- Claim C3: with a probability-capable model, a cluster is accepted iff
the probability of the positive (human) class, `prob_estimates[0]`, is at
least the `human_probability` threshold; at threshold 0.7, probability 0.65
is rejected and 0.75 accepted. -/
theorem probability_threshold_decision (probEst0 : ℚ) (label : ℤ) (thr : ℚ) :
    (classifyAccept true true probEst0 label thr = true ↔ thr ≤ probEst0) ∧
    classifyAccept true true (65 / 100) label (7 / 10) = false ∧
    classifyAccept true true (75 / 100) label (7 / 10) = true := by
  refine ⟨?_, ?_, ?_⟩
  · simp [classifyAccept, not_lt]
  · simp only [classifyAccept, if_pos]
    norm_num
  · simp only [classifyAccept, if_pos]
    norm_num

/-! ## Feature extraction (`Object3dDetector::extractFeature` and helpers) -/

/-- The constant `FLT_MAX`, the initial value of the `min_distance` fold
(= (2 − 2⁻²³)·2¹²⁷). -/
def fltMax : ℚ := 2 ^ 128 - 2 ^ 104

/-- The `f2` loop of `extractFeature`: starting from `FLT_MAX`, replace the
accumulator by each point's squared range whenever it is smaller. -/
def minDistance (pc : List Point) : ℚ :=
  pc.foldl (fun acc p => if acc > squaredRange p then squaredRange p else acc) fltMax

/-- Minimum of one coordinate over a cloud (the per-component part of
`pcl::getMinMax3D`; the value for an empty cloud is irrelevant). -/
def compMin (f : Point → ℚ) : List Point → ℚ
  | [] => 0
  | p :: ps => ps.foldl (fun a q => min a (f q)) (f p)

/-- Maximum of one coordinate over a cloud (the other half of
`pcl::getMinMax3D`). -/
def compMax (f : Point → ℚ) : List Point → ℚ
  | [] => 0
  | p :: ps => ps.foldl (fun a q => max a (f q)) (f p)

/-- The function `pcl::getMinMax3D`: componentwise minimum and maximum corners. -/
def getMinMax3D (pc : List Point) : Point × Point :=
  (⟨compMin (fun p => p.x) pc, compMin (fun p => p.y) pc, compMin (fun p => p.z) pc⟩,
   ⟨compMax (fun p => p.x) pc, compMax (fun p => p.y) pc, compMax (fun p => p.z) pc⟩)

/-- The function `pcl::compute3DCentroid`: componentwise mean. -/
def compute3DCentroid (pc : List Point) : Point :=
  ⟨(pc.map (fun p => p.x)).sum / pc.length,
   (pc.map (fun p => p.y)).sum / pc.length,
   (pc.map (fun p => p.z)).sum / pc.length⟩

/-- Coordinate `i` of a point. -/
def comp (i : Fin 3) (p : Point) : ℚ :=
  if i.val = 0 then p.x else if i.val = 1 then p.y else p.z

/-- The function `pcl::computeCovarianceMatrixNormalized` with an externally supplied
centroid `c`: the covariance sums divided by the number of points. -/
def covarianceNormalized (pts : List Point) (c : Point) : Fin 3 → Fin 3 → ℚ :=
  fun i j =>
    (pts.map (fun p => (comp i p - comp i c) * (comp j p - comp j c))).sum / pts.length

/-- The function `computeMomentOfInertiaTensorNormalized`: the rigid-body inertia sums,
symmetrised, with no division by the point count. -/
def momentOfInertia (pts : List Point) : Fin 3 → Fin 3 → ℚ := fun i j =>
  match i.val, j.val with
  | 0, 0 => (pts.map (fun p => p.y * p.y + p.z * p.z)).sum
  | 0, 1 => -(pts.map (fun p => p.x * p.y)).sum
  | 0, 2 => -(pts.map (fun p => p.x * p.z)).sum
  | 1, 0 => -(pts.map (fun p => p.x * p.y)).sum
  | 1, 1 => (pts.map (fun p => p.x * p.x + p.z * p.z)).sum
  | 1, 2 => -(pts.map (fun p => p.y * p.z)).sum
  | 2, 0 => -(pts.map (fun p => p.x * p.z)).sum
  | 2, 1 => -(pts.map (fun p => p.y * p.z)).sum
  | _, _ => (pts.map (fun p => p.x * p.x + p.y * p.y)).sum

/-- The height-bin index of `computeSlice`:
`std::min(n-1, (int)((z - pc_min[2]) / itv))` (the C cast truncates; for
the nonnegative quotients that occur it is the floor). -/
def binIndex (n : Nat) (zmin itv : ℚ) (p : Point) : Nat :=
  min (n - 1) (Int.toNat ⌊(p.z - zmin) / itv⌋)

/-- The bin `blocks[i]`: the points of the cluster falling in height bin `i`
(in cloud order, as the push-back loop produces them). -/
def blockOf (pc : List Point) (n : Nat) (zmin itv : ℚ) (i : Nat) : List Point :=
  pc.filter (fun p => binIndex n zmin itv p == i)

/-- The write-out loop of `computeSlice` over bins `0 .. k-1`: a bin with
more than 2 points contributes the first two bounding-box extents of the
PCA projection of just that bin, a bin with at most 2 points contributes
the extents of the zeroed min/max vectors, i.e. `(0, 0)`. -/
def sliceWrite (project : List Point → List Point) (blocks : Nat → List Point) :
    Nat → (Nat → ℚ) → (Nat → ℚ)
  | 0, s => s
  | k + 1, s =>
    let s2 := sliceWrite project blocks k s
    if 2 < (blocks k).length then
      Function.update
        (Function.update s2 (2 * k)
          (compMax (fun p => p.x) (project (blocks k)) -
            compMin (fun p => p.x) (project (blocks k))))
        (2 * k + 1)
        (compMax (fun p => p.y) (project (blocks k)) -
          compMin (fun p => p.y) (project (blocks k)))
    else
      Function.update (Function.update s2 (2 * k) 0) (2 * k + 1) 0

/-- The function `computeSlice(pc, n, slice)`: zero the 2n slice values, and when the
z-range is non-degenerate (`itv > 0`) write each bin's two extents. -/
def computeSlice (project : List Point → List Point) (pc : List Point) (n : Nat) :
    Nat → ℚ :=
  let zmin := compMin (fun p => p.z) pc
  let zmax := compMax (fun p => p.z) pc
  let itv := (zmax - zmin) / n
  if 0 < itv then
    sliceWrite project (fun i => blockOf pc n zmin itv i) n (fun _ => 0)
  else
    fun _ => 0

/-- The classification half of the `Feature` record (the 34 descriptor
dimensions: 1 count + 1 min distance + 6 covariance + 6 inertia + 20
slice). -/
structure ClassificationPart where
  number_points : Nat
  min_distance : ℚ
  covariance_3d : Fin 3 → Fin 3 → ℚ
  moment_3d : Fin 3 → Fin 3 → ℚ
  slice : Nat → ℚ

/-- The `Feature` record: visualization fields always set, classification
fields only set under `use_svm_model_` (modelled as an `Option`). -/
structure Feature where
  centroid : Point
  min : Point
  max : Point
  classification : Option ClassificationPart

/-- The method `Object3dDetector::extractFeature`: always store the visualization
fields; when a model is in use additionally compute the descriptor, with
the covariance and inertia tensor on the PCA-projected cloud and the slice
descriptor on the original cloud. `project` stands for the external
`pcl::PCA` projection capability. -/
def extractFeature (useSvm : Bool) (project : List Point → List Point)
    (pc : List Point) (mn mx c : Point) : Feature :=
  { centroid := c, min := mn, max := mx,
    classification :=
      if useSvm then
        some { number_points := pc.length,
               min_distance := minDistance pc,
               covariance_3d := covarianceNormalized (project pc) c,
               moment_3d := momentOfInertia (project pc),
               slice := computeSlice project pc 10 }
      else none }

/-! ## Cluster orchestration (`Object3dDetector::extractCluster`) -/

/-- The `human_size_limit_` rejection test on the bounding-box extents:
`max-min < 0.2 || > 1.0` in x and y, `< 0.5 || > 2.0` in z. -/
def sizeGateReject (dx dy dz : ℚ) : Bool :=
  decide (dx < 1 / 5) || decide (dx > 1) || decide (dy < 1 / 5) || decide (dy > 1) ||
    decide (dz < 1 / 2) || decide (dz > 2)

/-- Per returned cluster group: compute bounding box and centroid, apply
the optional size gate (`continue` on failure), otherwise extract the
feature. -/
def processCluster (useSvm humanSizeLimit : Bool)
    (project : List Point → List Point) (cluster : List Point) : Option Feature :=
  let mn := (getMinMax3D cluster).1
  let mx := (getMinMax3D cluster).2
  let c := compute3DCentroid cluster
  if humanSizeLimit && sizeGateReject (mx.x - mn.x) (mx.y - mn.y) (mx.z - mn.z) then
    none
  else
    some (extractFeature useSvm project cluster mn mx c)

/-- The per-feature loop of `classify` as a filter: the features that are
not skipped by `continue` and reach the output messages. `prob` and `label`
stand for the external classifier capability. -/
def classifyOutput (useSvm isProb : Bool) (thr : ℚ) (prob : Feature → ℚ)
    (label : Feature → ℤ) (features : List Feature) : List Feature :=
  features.filter (fun f => classifyAccept useSvm isProb (prob f) (label f) thr)

/-- The clustering loop of `extractCluster`: `tolerance` starts at 0 and is
incremented by 0.1 at the top of every band iteration; a band whose index
set has more than `cluster_size_min` points invokes the external clustering
capability with `voxelX = voxelY = voxelZ = tolerance`. The list collects
`(band, voxelX, voxelY, voxelZ)` for each invocation. -/
def clusterTolerancesAux (sizes : Nat → Nat) (m : Nat) :
    Nat → Nat → ℚ → List (Nat × ℚ × ℚ × ℚ)
  | 0, _, _ => []
  | k + 1, i, tol =>
    (if m < sizes i then [(i, tol + 1 / 10, tol + 1 / 10, tol + 1 / 10)] else []) ++
      clusterTolerancesAux sizes m k (i + 1) (tol + 1 / 10)

/-- The 14-band clustering schedule with `tolerance` starting at 0. -/
def clusterInvocations (sizes : Nat → Nat) (m : Nat) : List (Nat × ℚ × ℚ × ℚ) :=
  clusterTolerancesAux sizes m 14 0 0

/-! ## Generic fold lemmas for componentwise minima and maxima -/

lemma foldl_min_le_start : ∀ (l : List ℚ) (a : ℚ), l.foldl min a ≤ a := by
  intro l
  induction l with
  | nil => intro a; simp
  | cons b l ih =>
    intro a
    calc (b :: l).foldl min a = l.foldl min (min a b) := by simp
    _ ≤ min a b := ih (min a b)
    _ ≤ a := min_le_left _ _

lemma foldl_min_le_mem : ∀ (l : List ℚ) (a x : ℚ), x ∈ l → l.foldl min a ≤ x := by
  intro l
  induction l with
  | nil => intro a x hx; simp at hx
  | cons b l ih =>
    intro a x hx
    rcases List.mem_cons.1 hx with rfl | hx
    · calc (x :: l).foldl min a = l.foldl min (min a x) := by simp
      _ ≤ min a x := foldl_min_le_start l _
      _ ≤ x := min_le_right _ _
    · simpa using ih (min a b) x hx

lemma foldl_min_mem_cons : ∀ (l : List ℚ) (a : ℚ), l.foldl min a = a ∨ l.foldl min a ∈ l := by
  intro l
  induction l with
  | nil => intro a; left; rfl
  | cons b l ih =>
    intro a
    have h : (b :: l).foldl min a = l.foldl min (min a b) := by simp
    rcases ih (min a b) with h1 | h1
    · rcases min_choice a b with h2 | h2
      · left; rw [h, h1, h2]
      · right; rw [h, h1, h2]; simp
    · right
      rw [h]
      simp [h1]

lemma foldl_max_ge_start : ∀ (l : List ℚ) (a : ℚ), a ≤ l.foldl max a := by
  intro l
  induction l with
  | nil => intro a; simp
  | cons b l ih =>
    intro a
    calc a ≤ max a b := le_max_left _ _
    _ ≤ l.foldl max (max a b) := ih (max a b)
    _ = (b :: l).foldl max a := by simp

lemma foldl_max_ge_mem : ∀ (l : List ℚ) (a x : ℚ), x ∈ l → x ≤ l.foldl max a := by
  intro l
  induction l with
  | nil => intro a x hx; simp at hx
  | cons b l ih =>
    intro a x hx
    rcases List.mem_cons.1 hx with rfl | hx
    · calc x ≤ max a x := le_max_right _ _
      _ ≤ l.foldl max (max a x) := foldl_max_ge_start l _
      _ = (x :: l).foldl max a := by simp
    · simpa using ih (max a b) x hx

/-- The value `compMin` bounds every member's coordinate from below. -/
lemma compMin_le {f : Point → ℚ} {pc : List Point} {q : Point} (hq : q ∈ pc) :
    compMin f pc ≤ f q := by
  cases pc with
  | nil => simp at hq
  | cons p ps =>
    have hrw : compMin f (p :: ps) = (ps.map f).foldl min (f p) := by
      rw [compMin, List.foldl_map]
    rcases List.mem_cons.1 hq with rfl | hq
    · rw [hrw]; exact foldl_min_le_start _ _
    · rw [hrw]
      exact foldl_min_le_mem _ _ _ (List.mem_map_of_mem f hq)

/-- The value `compMax` bounds every member's coordinate from above. -/
lemma le_compMax {f : Point → ℚ} {pc : List Point} {q : Point} (hq : q ∈ pc) :
    f q ≤ compMax f pc := by
  cases pc with
  | nil => simp at hq
  | cons p ps =>
    have hrw : compMax f (p :: ps) = (ps.map f).foldl max (f p) := by
      rw [compMax, List.foldl_map]
    rcases List.mem_cons.1 hq with rfl | hq
    · rw [hrw]; exact foldl_max_ge_start _ _
    · rw [hrw]
      exact foldl_max_ge_mem _ _ _ (List.mem_map_of_mem f hq)

/-- The `min_distance` fold is the fold of `min` over the squared ranges. -/
lemma minDistance_eq_foldl_min (pc : List Point) :
    minDistance pc = (pc.map squaredRange).foldl min fltMax := by
  rw [minDistance, List.foldl_map]
  congr 1
  funext acc p
  rcases le_total acc (squaredRange p) with h | h
  · rw [if_neg (by exact not_lt.2 h), min_eq_left h]
  · rcases lt_or_eq_of_le h with h1 | h1
    · rw [if_pos h1, min_eq_right h]
    · rw [h1]
      simp

/-- The `min_distance` fold over a nonempty cluster whose squared ranges do
not exceed `FLT_MAX` computes the minimum squared range: it is attained at
a member and bounds all members from below. -/
lemma minDistance_spec (pc : List Point) (hne : pc ≠ [])
    (hb : ∀ p ∈ pc, squaredRange p ≤ fltMax) :
    minDistance pc ∈ pc.map squaredRange ∧
      ∀ p ∈ pc, minDistance pc ≤ squaredRange p := by
  have hle : ∀ p ∈ pc, minDistance pc ≤ squaredRange p := by
    intro p hp
    rw [minDistance_eq_foldl_min]
    exact foldl_min_le_mem _ _ _ (List.mem_map_of_mem squaredRange hp)
  refine ⟨?_, hle⟩
  rcases foldl_min_mem_cons (pc.map squaredRange) fltMax with h | h
  · obtain ⟨p0, hp0⟩ := List.exists_mem_of_ne_nil pc hne
    have h1 : minDistance pc ≤ squaredRange p0 := hle p0 hp0
    have h2 : squaredRange p0 ≤ fltMax := hb p0 hp0
    rw [minDistance_eq_foldl_min, h] at h1 ⊢
    have : squaredRange p0 = fltMax := le_antisymm h2 h1
    rw [← this]
    exact List.mem_map_of_mem squaredRange hp0
  · rw [minDistance_eq_foldl_min]
    exact h

/-- Claim C4: the `min_distance` feature of an extracted cluster is the
minimum over the cluster's member points of the squared Euclidean distance
`x²+y²+z²` from the origin, with no square root applied: it equals the
squared range of some member and is at most every member's squared range. -/
theorem min_distance_squared (project : List Point → List Point)
    (pc : List Point) (mn mx c : Point) (hne : pc ≠ [])
    (hb : ∀ p ∈ pc, squaredRange p ≤ fltMax) :
    ∃ cl, (extractFeature true project pc mn mx c).classification = some cl ∧
      cl.min_distance ∈ pc.map squaredRange ∧
      ∀ p ∈ pc, cl.min_distance ≤ squaredRange p := by
  obtain ⟨hmem, hle⟩ := minDistance_spec pc hne hb
  exact ⟨{ number_points := pc.length, min_distance := minDistance pc,
           covariance_3d := covarianceNormalized (project pc) c,
           moment_3d := momentOfInertia (project pc),
           slice := computeSlice project pc 10 },
    by simp [extractFeature], hmem, hle⟩

/-- Claim C4 witness: a concrete two-point cluster, where the minimum
squared range is attained and bounds both members. -/
theorem min_distance_squared_witness :
    ∃ cl, (extractFeature true (fun l => l) [⟨1, 0, 0⟩, ⟨0, 2, 0⟩]
        ⟨0, 0, 0⟩ ⟨0, 0, 0⟩ ⟨0, 0, 0⟩).classification = some cl ∧
      cl.min_distance ∈ [Point.mk 1 0 0, Point.mk 0 2 0].map squaredRange ∧
      ∀ p ∈ [Point.mk 1 0 0, Point.mk 0 2 0], cl.min_distance ≤ squaredRange p := by
  apply min_distance_squared
  · simp
  · intro p hp
    rcases List.mem_cons.1 hp with rfl | hp
    · norm_num [squaredRange, fltMax]
    · rcases List.mem_cons.1 hp with rfl | hp
      · norm_num [squaredRange, fltMax]
      · simp at hp

/-- Claim C6: with `human_size_limit` enabled, a returned cluster group
reaches feature extraction exactly when its bounding-box extents satisfy
x ∈ [0.2, 1.0], y ∈ [0.2, 1.0], z ∈ [0.5, 2.0]; the concrete extents
(0.1, 0.5, 1.0) are rejected before feature extraction and (0.4, 0.4, 1.7)
pass. -/
lemma sizeGateReject_eq_false_iff (dx dy dz : ℚ) :
    sizeGateReject dx dy dz = false ↔
      (1 / 5 ≤ dx ∧ dx ≤ 1 ∧ 1 / 5 ≤ dy ∧ dy ≤ 1 ∧ 1 / 2 ≤ dz ∧ dz ≤ 2) := by
  rw [sizeGateReject]
  simp [not_lt]
  tauto

theorem human_size_gate (useSvm : Bool) (project : List Point → List Point)
    (cluster : List Point) :
    ((processCluster useSvm true project cluster).isSome = true ↔
      (1 / 5 ≤ (getMinMax3D cluster).2.x - (getMinMax3D cluster).1.x ∧
       (getMinMax3D cluster).2.x - (getMinMax3D cluster).1.x ≤ 1 ∧
       1 / 5 ≤ (getMinMax3D cluster).2.y - (getMinMax3D cluster).1.y ∧
       (getMinMax3D cluster).2.y - (getMinMax3D cluster).1.y ≤ 1 ∧
       1 / 2 ≤ (getMinMax3D cluster).2.z - (getMinMax3D cluster).1.z ∧
       (getMinMax3D cluster).2.z - (getMinMax3D cluster).1.z ≤ 2)) ∧
    (processCluster useSvm true project
        [⟨0, 0, 0⟩, ⟨1 / 10, 1 / 2, 1⟩]).isSome = false ∧
    (processCluster useSvm true project
        [⟨0, 0, 0⟩, ⟨2 / 5, 2 / 5, 17 / 10⟩]).isSome = true := by
  refine ⟨?_, ?_, ?_⟩
  · rw [processCluster]
    simp only [Bool.true_and]
    rw [← sizeGateReject_eq_false_iff]
    cases hsg : sizeGateReject ((getMinMax3D cluster).2.x - (getMinMax3D cluster).1.x)
        ((getMinMax3D cluster).2.y - (getMinMax3D cluster).1.y)
        ((getMinMax3D cluster).2.z - (getMinMax3D cluster).1.z) with
    | false => simp
    | true => simp
  · norm_num [processCluster, getMinMax3D, compMin, compMax, sizeGateReject]
  · norm_num [processCluster, getMinMax3D, compMin, compMax, sizeGateReject]

/-- Claim C7: when the SVM model or the range file fails to load,
`use_svm_model_` stays false (model-free mode), and in model-free mode the
classification loop accepts every feature unconditionally: the output list
is the whole feature list. -/
theorem model_free_accept_all (b isProb : Bool) (thr : ℚ) (prob : Feature → ℚ)
    (label : Feature → ℤ) (features : List Feature) :
    initUseSvmModel false b = false ∧ initUseSvmModel b false = false ∧
    classifyOutput false isProb thr prob label features = features := by
  refine ⟨by simp [initUseSvmModel], by simp [initUseSvmModel], ?_⟩
  simp [classifyOutput, classifyAccept]

/-- Claim C9: the range-file parse loop writes only the listed rows of
`svm_scale_range_`, which is never initialised; for an unlisted dimension
the scaling step runs with whatever the array held (here a possible
indeterminate row (0, 1)) and changes the value 1/2 to 0, so normalisation
of unlisted dimensions is not a no-op. -/
theorem unlisted_dimension_scaled :
    parseRangeLines (fun _ => ((0 : ℚ), (1 : ℚ))) [] =
      (fun _ => ((0 : ℚ), (1 : ℚ))) ∧
    scaleFeatures (parseRangeLines (fun _ => ((0 : ℚ), (1 : ℚ))) []) (-1) 1
        (fun _ => 1 / 2) 0 = 0 ∧
    ((1 : ℚ) / 2 ≠ 0) := by
  refine ⟨rfl, ?_, by norm_num⟩
  rw [scaleFeatures, parseRangeLines]
  simp only [List.foldl_nil]
  rw [scaleValue, if_neg (by norm_num [dblEpsilon]),
    if_neg (by norm_num [dblEpsilon, abs_of_nonneg]),
    if_neg (by norm_num [dblEpsilon, abs_of_nonneg])]
  norm_num

/-- Claim C10: in model-free mode `extractFeature` assigns only the
visualization fields (centroid, bounding-box min and max); the 34
classification dimensions are never computed and remain unset. -/
theorem model_free_feature_fields (project : List Point → List Point)
    (pc : List Point) (mn mx c : Point) :
    extractFeature false project pc mn mx c =
      { centroid := c, min := mn, max := mx, classification := none } := by
  simp [extractFeature]

/-- Membership in the clustering schedule: the invocation of band
`i0 + d` carries tolerance `t0 + (d+1)/10` in all three axes. -/
lemma clusterTolerancesAux_mem (sizes : Nat → Nat) (m : Nat) :
    ∀ (k i0 : Nat) (t0 : ℚ) (x : Nat × ℚ × ℚ × ℚ),
      (x ∈ clusterTolerancesAux sizes m k i0 t0 ↔
        ∃ d, d < k ∧ m < sizes (i0 + d) ∧
          x = (i0 + d, t0 + ((d : ℚ) + 1) / 10, t0 + ((d : ℚ) + 1) / 10,
            t0 + ((d : ℚ) + 1) / 10)) := by
  intro k
  induction k with
  | zero =>
    intro i0 t0 x
    simp [clusterTolerancesAux]
  | succ k ih =>
    intro i0 t0 x
    rw [clusterTolerancesAux, List.mem_append, ih (i0 + 1) (t0 + 1 / 10)]
    constructor
    · rintro (hx | ⟨d, hd, hs, rfl⟩)
      · have hx2 : m < sizes i0 ∧ x = (i0, t0 + 1 / 10, t0 + 1 / 10, t0 + 1 / 10) := by
          by_cases hc : m < sizes i0
          · rw [if_pos hc, List.mem_singleton] at hx
            exact ⟨hc, hx⟩
          · rw [if_neg hc] at hx
            simp at hx
        refine ⟨0, by omega, by simpa using hx2.1, ?_⟩
        rw [hx2.2]
        norm_num
      · refine ⟨d + 1, by omega, ?_, ?_⟩
        · have : i0 + (d + 1) = i0 + 1 + d := by omega
          rw [this]
          exact hs
        · have h1 : i0 + (d + 1) = i0 + 1 + d := by omega
          have h2 : t0 + 1 / 10 + ((d : ℚ) + 1) / 10 = t0 + (((d : ℚ) + 1) + 1) / 10 := by
            ring
          rw [h1, h2]
          norm_cast
    · rintro ⟨d, hd, hs, rfl⟩
      cases d with
      | zero =>
        left
        rw [if_pos (by simpa using hs)]
        simp
      | succ d =>
        right
        refine ⟨d, by omega, ?_, ?_⟩
        · have : i0 + 1 + d = i0 + (d + 1) := by omega
          rw [this]
          exact hs
        · have h1 : i0 + 1 + d = i0 + (d + 1) := by omega
          have h2 : t0 + 1 / 10 + ((d : ℚ) + 1) / 10 = t0 + (((d : ℚ) + 1) + 1) / 10 := by
            ring
          rw [h1, h2]
          norm_cast

/-- Claim C8: a band invokes the external clustering capability exactly
when it has strictly more than `cluster_size_min` points, and then the
tolerance passed is exactly `0.1 × (bandIndex + 1)`, identical in x, y and
z. -/
theorem adaptive_tolerance (sizes : Nat → Nat) (m i : Nat) (tx ty tz : ℚ) :
    (i, tx, ty, tz) ∈ clusterInvocations sizes m ↔
      i < 14 ∧ m < sizes i ∧ tx = ((i : ℚ) + 1) * (1 / 10) ∧ ty = tx ∧ tz = tx := by
  rw [clusterInvocations, clusterTolerancesAux_mem]
  constructor
  · rintro ⟨d, hd, hs, heq⟩
    simp only [Prod.mk.injEq] at heq
    obtain ⟨rfl, h2, h3, h4⟩ := heq
    simp only [Nat.zero_add] at hs ⊢
    refine ⟨by omega, hs, ?_, ?_, ?_⟩
    · rw [h2]; ring
    · rw [h3, h2]
    · rw [h4, h2]
  · rintro ⟨h14, hs, rfl, rfl, rfl⟩
    refine ⟨i, by omega, by simpa using hs, ?_⟩
    simp only [Nat.zero_add, Prod.mk.injEq]
    refine ⟨trivial, by ring, by ring, by ring⟩

/-- Indices at or beyond `2k` are untouched by the first `k` bin writes. -/
lemma sliceWrite_untouched (project : List Point → List Point)
    (blocks : Nat → List Point) :
    ∀ (k : Nat) (s : Nat → ℚ) (idx : Nat), 2 * k ≤ idx →
      sliceWrite project blocks k s idx = s idx := by
  intro k
  induction k with
  | zero => intro s idx _; rfl
  | succ k ih =>
    intro s idx h
    simp only [sliceWrite]
    split_ifs with hlen
    · rw [Function.update_noteq (by omega : idx ≠ 2 * k + 1),
        Function.update_noteq (by omega : idx ≠ 2 * k)]
      exact ih s idx (by omega)
    · rw [Function.update_noteq (by omega : idx ≠ 2 * k + 1),
        Function.update_noteq (by omega : idx ≠ 2 * k)]
      exact ih s idx (by omega)

/-- One more bin write leaves indices other than `2k` and `2k+1`
unchanged. -/
lemma sliceWrite_succ_ne (project : List Point → List Point)
    (blocks : Nat → List Point) (k : Nat) (s : Nat → ℚ) (idx : Nat)
    (h1 : idx ≠ 2 * k) (h2 : idx ≠ 2 * k + 1) :
    sliceWrite project blocks (k + 1) s idx = sliceWrite project blocks k s idx := by
  simp only [sliceWrite]
  split_ifs <;> rw [Function.update_noteq h2, Function.update_noteq h1]

/-- Values written for bin `j` by the first `k` bin writes, `j < k`: the
two bounding-box extents of the projected bin when it has more than 2
points, `(0, 0)` otherwise. -/
lemma sliceWrite_at (project : List Point → List Point)
    (blocks : Nat → List Point) :
    ∀ (k : Nat) (s : Nat → ℚ) (j : Nat), j < k →
      (sliceWrite project blocks k s (2 * j) =
        if 2 < (blocks j).length then
          compMax (fun p => p.x) (project (blocks j)) -
            compMin (fun p => p.x) (project (blocks j))
        else 0) ∧
      (sliceWrite project blocks k s (2 * j + 1) =
        if 2 < (blocks j).length then
          compMax (fun p => p.y) (project (blocks j)) -
            compMin (fun p => p.y) (project (blocks j))
        else 0) := by
  intro k
  induction k with
  | zero => intro s j h; omega
  | succ k ih =>
    intro s j hj
    rcases Nat.lt_succ_iff_lt_or_eq.1 hj with h | rfl
    · obtain ⟨h1, h2⟩ := ih s j h
      constructor
      · rw [sliceWrite_succ_ne project blocks k s (2 * j) (by omega) (by omega)]
        exact h1
      · rw [sliceWrite_succ_ne project blocks k s (2 * j + 1) (by omega) (by omega)]
        exact h2
    · simp only [sliceWrite]
      split_ifs with hlen
      · constructor
        · rw [Function.update_noteq (by omega : 2 * j ≠ 2 * j + 1),
            Function.update_same]
        · rw [Function.update_same]
      · constructor
        · rw [Function.update_noteq (by omega : 2 * j ≠ 2 * j + 1),
            Function.update_same]
        · rw [Function.update_same]

/-- Claim C5: the 20-value slice descriptor: z-range split into 10
equal-height bins (`itv = (zmax - zmin)/10`, bin index
`min(9, ⌊(z - zmin)/itv⌋)`, which is nonnegative for cluster members);
degenerate `itv = 0` leaves all slice values 0; a bin with more than 2
points contributes the bounding-box extents along the first two axes of a
fresh PCA projection of just that bin's points, a bin with at most 2
points contributes `(0, 0)`, stored 2 per bin in bin order; and
`extractFeature` computes the descriptor on the original (unprojected)
cluster points. -/
theorem slice_descriptor (project : List Point → List Point) (pc : List Point)
    (mn mx c : Point) (zmin zmax itv : ℚ)
    (hzmin : zmin = compMin (fun p => p.z) pc)
    (hzmax : zmax = compMax (fun p => p.z) pc)
    (hitv : itv = (zmax - zmin) / 10) :
    (itv = 0 → ∀ i, computeSlice project pc 10 i = 0) ∧
    (0 < itv → ∀ j, j < 10 →
      (((blockOf pc 10 zmin itv j).length ≤ 2 →
          computeSlice project pc 10 (2 * j) = 0 ∧
          computeSlice project pc 10 (2 * j + 1) = 0) ∧
       (2 < (blockOf pc 10 zmin itv j).length →
          computeSlice project pc 10 (2 * j) =
            compMax (fun p => p.x) (project (blockOf pc 10 zmin itv j)) -
              compMin (fun p => p.x) (project (blockOf pc 10 zmin itv j)) ∧
          computeSlice project pc 10 (2 * j + 1) =
            compMax (fun p => p.y) (project (blockOf pc 10 zmin itv j)) -
              compMin (fun p => p.y) (project (blockOf pc 10 zmin itv j))) ∧
       (∀ q, q ∈ blockOf pc 10 zmin itv j ↔
          q ∈ pc ∧ min 9 (Int.toNat ⌊(q.z - zmin) / itv⌋) = j))) ∧
    (0 < itv → ∀ q ∈ pc, (0 : ℤ) ≤ ⌊(q.z - zmin) / itv⌋) ∧
    (∃ cl, (extractFeature true project pc mn mx c).classification = some cl ∧
      cl.slice = computeSlice project pc 10) := by
  subst hzmin
  subst hzmax
  subst hitv
  have hcast : ((10 : ℕ) : ℚ) = (10 : ℚ) := by norm_num
  refine ⟨?_, ?_, ?_, ?_⟩
  · intro h0 i
    simp only [computeSlice, hcast, Nat.cast_ofNat]
    rw [if_neg (by rw [h0]; exact lt_irrefl 0)]
  · intro hpos j hj
    have hcs : ∀ idx, computeSlice project pc 10 idx =
        sliceWrite project
          (fun i => blockOf pc 10 (compMin (fun p => p.z) pc)
            ((compMax (fun p => p.z) pc - compMin (fun p => p.z) pc) / 10) i)
          10 (fun _ => 0) idx := by
      intro idx
      simp only [computeSlice, Nat.cast_ofNat]
      rw [if_pos hpos]
    obtain ⟨hat1, hat2⟩ := sliceWrite_at project
      (fun i => blockOf pc 10 (compMin (fun p => p.z) pc)
        ((compMax (fun p => p.z) pc - compMin (fun p => p.z) pc) / 10) i)
      10 (fun _ => 0) j hj
    refine ⟨?_, ?_, ?_⟩
    · intro hlen
      constructor
      · rw [hcs, hat1, if_neg (by omega)]
      · rw [hcs, hat2, if_neg (by omega)]
    · intro hlen
      constructor
      · rw [hcs, hat1, if_pos hlen]
      · rw [hcs, hat2, if_pos hlen]
    · intro q
      rw [blockOf, List.mem_filter, beq_iff_eq, binIndex]
  · intro hpos q hq
    apply Int.floor_nonneg.2
    apply div_nonneg
    · rw [sub_nonneg]
      exact compMin_le hq
    · exact le_of_lt hpos
  · exact ⟨{ number_points := pc.length, min_distance := minDistance pc,
             covariance_3d := covarianceNormalized (project pc) c,
             moment_3d := momentOfInertia (project pc),
             slice := computeSlice project pc 10 },
      by simp [extractFeature], rfl⟩

/-- Claim C5 witness: a concrete four-point cluster with z-range [0, 10]
(`itv = 1`): bin 0 holds three points, so its two slice values are the
first two bounding-box extents of the projected bin. -/
theorem slice_descriptor_witness :
    computeSlice (fun l => l) [⟨0, 0, 0⟩, ⟨1, 0, 0⟩, ⟨0, 1, 0⟩, ⟨0, 0, 10⟩] 10 (2 * 0) =
      compMax (fun p => p.x)
          ((fun l => l) (blockOf [⟨0, 0, 0⟩, ⟨1, 0, 0⟩, ⟨0, 1, 0⟩, ⟨0, 0, 10⟩] 10 0 1 0)) -
        compMin (fun p => p.x)
          ((fun l => l) (blockOf [⟨0, 0, 0⟩, ⟨1, 0, 0⟩, ⟨0, 1, 0⟩, ⟨0, 0, 10⟩] 10 0 1 0)) ∧
    computeSlice (fun l => l) [⟨0, 0, 0⟩, ⟨1, 0, 0⟩, ⟨0, 1, 0⟩, ⟨0, 0, 10⟩] 10 (2 * 0 + 1) =
      compMax (fun p => p.y)
          ((fun l => l) (blockOf [⟨0, 0, 0⟩, ⟨1, 0, 0⟩, ⟨0, 1, 0⟩, ⟨0, 0, 10⟩] 10 0 1 0)) -
        compMin (fun p => p.y)
          ((fun l => l) (blockOf [⟨0, 0, 0⟩, ⟨1, 0, 0⟩, ⟨0, 1, 0⟩, ⟨0, 0, 10⟩] 10 0 1 0)) := by
  have h := slice_descriptor (fun l => l) [⟨0, 0, 0⟩, ⟨1, 0, 0⟩, ⟨0, 1, 0⟩, ⟨0, 0, 10⟩]
    ⟨0, 0, 0⟩ ⟨0, 0, 0⟩ ⟨0, 0, 0⟩ 0 10 1
    (by norm_num [compMin]) (by norm_num [compMax]) (by norm_num)
  exact (h.2.1 (by norm_num) 0 (by norm_num)).2.1
    (by norm_num [blockOf, binIndex, List.filter])

/-- Claim C3 witness: the acceptance equivalence applied at probability
3/4 and threshold 7/10. -/
theorem probability_threshold_decision_witness :
    classifyAccept true true (3 / 4) 1 (7 / 10) = true :=
  (probability_threshold_decision (3 / 4) 1 (7 / 10)).1.2 (by norm_num)

/-- Claim C6 witness: the gate equivalence applied backwards to a concrete
two-point cluster with extents (0.4, 0.4, 1.7). -/
theorem human_size_gate_witness :
    (processCluster true true (fun l => l)
        [⟨0, 0, 0⟩, ⟨2 / 5, 2 / 5, 17 / 10⟩]).isSome = true :=
  (human_size_gate true (fun l => l) [⟨0, 0, 0⟩, ⟨2 / 5, 2 / 5, 17 / 10⟩]).1.2
    (by norm_num [getMinMax3D, compMin, compMax])

/-- Claim C8 witness: band 0 with 6 points and `cluster_size_min = 5` is
invoked with tolerance 0.1 in all three axes. -/
theorem adaptive_tolerance_witness :
    ((0 : Nat), (1 : ℚ) / 10, (1 : ℚ) / 10, (1 : ℚ) / 10) ∈
      clusterInvocations (fun _ => 6) 5 :=
  (adaptive_tolerance (fun _ => 6) 5 0 (1 / 10) (1 / 10) (1 / 10)).2
    ⟨by norm_num, by norm_num, by norm_num, rfl, rfl⟩

end ObjectDetector
